import Mathlib

/-!
Verification of the PFQ transmit core against its specification.

This development gives a shallow embedding of the PFQ kernel code
(kernel/pf_q-transmit.c, kernel/pf_q-skbuff-pool.h) and of the
user-space pfq-lang serializer (user/C++/pfq-lang.hpp), and proves
the stated properties about those embeddings.

Modelling conventions:
  machine integers are Nat or Int with explicit wrap-around where the
  C performs one; fallible or environment-dependent kernel calls
  (driver transmit results, allocation, signal delivery, the clock)
  are supplied by explicit oracles; undefined behaviour (wild loads,
  a triggered BUG_ON) is modelled by returning none.
-/

namespace PFQ

/-! ## Socket-buffer pool (kernel/pf_q-skbuff-pool.h)

The pool is an SPSC ring of buffer handles.  Buffers are identified by
a Nat handle; the reference count of a buffer is read through the
oracle map given to pop.  A slot holding none models a NULL pointer in
the skbs array; a pool whose skbs field is none models a pool whose
backing array was never allocated. -/

/-- Buffer handle: an sk_buff is identified by a number. -/
abbrev SkbId := Nat

/-- The struct pfq_skb_pool record. -/
structure SkbPool where
  skbs : Option (List (Option SkbId))
  size : Nat
  p_idx : Nat
  c_idx : Nat
deriving DecidableEq, Repr

/-- Translation of __pool_next: advance an index, wrapping at size. -/
def __pool_next (pool : SkbPool) (i : Nat) : Nat :=
  let n := i + 1
  if n = pool.size then 0 else n

/-- Translation of pfq_skb_pool_pop.  The users argument gives the
reference count of each buffer (atomic_read of skb users).  Returns
none on behaviour that is undefined in the C source: reading a slot
out of the bounds of the backing array, or dereferencing a NULL slot
for its reference count. -/
def pfq_skb_pool_pop (users : SkbId → Nat) (pool : SkbPool) :
    Option (Option SkbId × SkbPool) :=
  match pool.skbs with
  | none => some (none, pool)
  | some arr =>
    let c := pool.c_idx
    let p := pool.p_idx
    if c = p then some (none, pool)
    else
      match arr.get? c with
      | none => none
      | some none => none
      | some (some skb) =>
        if users skb < 2 then
          some (some skb,
                { pool with skbs := some (arr.set c none),
                            c_idx := __pool_next pool c })
        else some (none, pool)

/-- Translation of pfq_skb_pool_push.  The osFree argument is the
memory_stats.os_free sparse counter; the call bumps it exactly when the
buffer goes through the slow kfree_skb path.  Returns none when the C
would hit undefined behaviour: an out-of-bounds producer slot, or the
BUG_ON firing because the producer slot is not NULL. -/
def pfq_skb_pool_push (pool : SkbPool) (skb : SkbId) (osFree : Nat) :
    Option (Bool × SkbPool × Nat) :=
  match pool.skbs with
  | none => some (false, pool, osFree + 1)
  | some arr =>
    let p := pool.p_idx
    let c := pool.c_idx
    let n := __pool_next pool p
    if n ≠ c then
      match arr.get? p with
      | none => none
      | some (some _) => none
      | some none =>
        some (true,
              { pool with skbs := some (arr.set p (some skb)), p_idx := n },
              osFree)
    else some (false, pool, osFree + 1)

/-! ## Hardware TX queue selection (pf_q-transmit.c, lines 53-94)

The device record keeps the fields the code reads: the number of real
TX queues (an unsigned int in the kernel) and the value produced by the
ndo_select_queue path (the driver selector if present, otherwise 0; a
u16 in the kernel).  The C comparison hw_queue >= real_num_tx_queues
compares an int against an unsigned int, so hw_queue is converted to
unsigned: we model the conversion explicitly. -/

structure NetDevice where
  real_num_tx_queues : Nat
  select_queue : Nat
deriving DecidableEq, Repr

/-- Conversion of a C int to the unsigned int used in the comparison
inside __pfq_dev_cap_txqueue. -/
def toUInt32Nat (x : Int) : Nat := (x % (2 ^ 32)).toNat

/-- Translation of __pfq_dev_cap_txqueue: out-of-range queue indices
(under the unsigned comparison) are reset to 0. -/
def __pfq_dev_cap_txqueue (dev : NetDevice) (hw_queue : Int) : Int :=
  if dev.real_num_tx_queues ≤ toUInt32Nat hw_queue then 0 else hw_queue

/-- Translation of pfq_pick_tx, projected to the queue index it settles
on (the returned netdev_queue is the queue with this index).  The
driver selector is modelled by the select_queue field of the device. -/
def pfq_pick_tx (dev : NetDevice) (hw_queue : Int) : Int :=
  let hw1 :=
    if dev.real_num_tx_queues ≠ 1 ∧ hw_queue = -1 then
      (dev.select_queue : Int)
    else hw_queue
  __pfq_dev_cap_txqueue dev hw1

/-! ## Lazy forwarding (pf_q-transmit.c, lines 567-686)

Target devices are identified by a Nat handle.  The gc_log record keeps
the fields the code uses: the list of logged target devices (dev array
up to num_devs), the xmit_todo counter (an int) and the to_kernel
flag. -/

abbrev DevId := Nat

/-- The struct gc_log record attached to an in-flight buffer. -/
structure GcLog where
  devs : List DevId
  xmit_todo : Int
  to_kernel : Bool
deriving DecidableEq, Repr

/-- An in-flight gc buffer: the queue mapping stored in the skb and the
gc_log in its control block. -/
structure GcBuff where
  queue_mapping : Int
  log : GcLog
deriving DecidableEq, Repr

/-- Translation of pfq_lazy_xmit.  The capacity Q_GC_LOG_QUEUE_LEN is
not part of the sources under review, so it is passed as the qlen
argument; the code only compares num_devs against it.  Returns the C
return value together with the updated buffer. -/
def pfq_lazy_xmit (qlen : Nat) (buff : GcBuff) (dev : DevId) (hw_queue : Int) :
    Nat × GcBuff :=
  if qlen ≤ buff.log.devs.length then (0, buff)
  else
    (1, { queue_mapping := hw_queue,
          log := { buff.log with
                   devs := buff.log.devs ++ [dev],
                   xmit_todo := buff.log.xmit_todo + 1 } })

/-- Modelled from the spec: gc_count_dev_in_log is declared in
pf_q-GC.h, which is not among the sources under review.  Per the spec
(section 4.F), for each in-flight buffer the commit counts the
references to the target device via the log; we model it as the number
of occurrences of the device in the logged device list. -/
def gc_count_dev_in_log (dev : DevId) (log : GcLog) : Nat :=
  log.devs.count dev

/-- Oracle for the commit loop: whether the j-th clone attempt
succeeds and whether the j-th driver submission returns NETDEV_TX_OK,
indexed by a global attempt counter. -/
structure LazyOra where
  cloneOk : Nat → Bool
  xmitOk : Nat → Bool

/-- One submission event of the lazy commit. -/
structure LazyEv where
  dev : DevId
  xmit_more : Bool
  to_clone : Bool
  delivered : Bool
deriving DecidableEq, Repr

/-- Translation of the innermost j-loop of pfq_lazy_xmit_exec: forward
one buffer num times to one device.  The state is the buffer log, the
per-device sent_dev counter, the global sent counter and the attempt
counter.  The C expression (log to_kernel || log xmit_todo-- > 1)
short-circuits: the decrement of xmit_todo happens exactly when
to_kernel is false, and to_clone compares the value before the
decrement. -/
def exec_submits (o : LazyOra) (dev : DevId) (cnt : Nat) :
    Nat → GcLog → Nat → Nat → Nat → GcLog × Nat × Nat × Nat × List LazyEv
  | 0, log, sent_dev, sent, att => (log, sent_dev, sent, att, [])
  | j + 1, log, sent_dev, sent, att =>
    let sent_dev1 := sent_dev + 1
    let more := decide (sent_dev1 ≠ cnt)
    let to_clone := log.to_kernel || decide (1 < log.xmit_todo)
    let log1 := if log.to_kernel then log
                else { log with xmit_todo := log.xmit_todo - 1 }
    let got := if to_clone then o.cloneOk att else true
    let delivered := got && o.xmitOk att
    let sent1 := if delivered then sent + 1 else sent
    let r := exec_submits o dev cnt j log1 sent_dev1 sent1 (att + 1)
    (r.1, r.2.1, r.2.2.1, r.2.2.2.1,
     ⟨dev, more, to_clone, delivered⟩ :: r.2.2.2.2)

/-- Translation of the middle loop of pfq_lazy_xmit_exec: scan the list
of in-flight buffer logs and forward each buffer that references the
device.  Buffers that do not reference the device are skipped
unchanged.  The acquisition of the device TX queue lock on the first
referencing buffer is not observable in this state and is omitted. -/
def exec_dev_loop (o : LazyOra) (dev : DevId) (cnt : Nat) :
    List GcLog → Nat → Nat → Nat → List GcLog × Nat × Nat × List LazyEv
  | [], _, sent, att => ([], sent, att, [])
  | log :: rest, sent_dev, sent, att =>
    let num := gc_count_dev_in_log dev log
    if num = 0 then
      let r := exec_dev_loop o dev cnt rest sent_dev sent att
      (log :: r.1, r.2.1, r.2.2.1, r.2.2.2)
    else
      let r1 := exec_submits o dev cnt num log sent_dev sent att
      let r2 := exec_dev_loop o dev cnt rest r1.2.1 r1.2.2.1 r1.2.2.2.1
      (r1.1 :: r2.1, r2.2.1, r2.2.2.1, r1.2.2.2.2 ++ r2.2.2.2)

/-- Translation of pfq_lazy_xmit_exec: for each target device of the
precomputed lazy_fwd_targets (device together with its cnt entry),
run the buffer scan.  Returns the updated logs, the global sent count,
the final attempt counter and the submission events. -/
def pfq_lazy_xmit_exec (o : LazyOra) :
    List (DevId × Nat) → List GcLog → Nat → Nat →
    List GcLog × Nat × Nat × List LazyEv
  | [], logs, sent, att => (logs, sent, att, [])
  | (dev, cnt) :: ts, logs, sent, att =>
    let r1 := exec_dev_loop o dev cnt logs 0 sent att
    let r2 := pfq_lazy_xmit_exec o ts r1.1 r1.2.1 r1.2.2.1
    (r2.1, r2.2.1, r2.2.2.1, r1.2.2.2 ++ r2.2.2.2)

/-- Total number of committed submissions a target list induces for a
buffer with the given log: the sum over the targets of the number of
log entries naming that target. -/
def execTotalCount (ts : List (DevId × Nat)) (log : GcLog) : Nat :=
  (ts.map fun dc => gc_count_dev_in_log dc.1 log).sum

/-! ## pfq-lang predicate serialization (user/C++/pfq-lang.hpp)

The predicate terms Pred, Pred1 and Pred2 of the user-space eDSL,
and the serialize overloads that flatten them into descriptor lists.
The opaque argument pointer of Pred1 is dropped; its size is kept. -/

inductive FunType where
  | combinator_fun
  | predicate_fun
deriving DecidableEq, Repr

/-- One FunDescr entry of the serialized program. -/
structure FunDescr where
  tag : FunType
  name : String
  size : Nat
  left : Int
  right : Int
deriving DecidableEq, Repr

/-- The Combinator term. -/
structure Combinator where
  name : String
deriving DecidableEq, Repr

/-- The predicate terms: Pred, Pred1 and the binary Pred2. -/
inductive PredTerm where
  | pred (name : String)
  | pred1 (name : String) (size : Nat)
  | pred2 (comb : Combinator) (left : PredTerm) (right : PredTerm)
deriving DecidableEq, Repr

/-- Translation of serialize(int, Combinator). -/
def serializeComb (n : Int) (c : Combinator) : List FunDescr × Int :=
  ([⟨FunType.combinator_fun, c.name, 0, -1, -1⟩], n + 1)

/-- Translation of the serialize overloads on predicate terms.  In the
Pred2 case the source serializes p.comb_, then p.left_, then p.left_
again: the right operand of the pattern never reaches a recursive
call. -/
def serializePred : Int → PredTerm → List FunDescr × Int
  | n, .pred name => ([⟨FunType.predicate_fun, name, 0, -1, -1⟩], n + 1)
  | n, .pred1 name size => ([⟨FunType.predicate_fun, name, size, -1, -1⟩], n + 1)
  | n, .pred2 comb l _ =>
    let rc := serializeComb n comb
    let rl := serializePred rc.2 l
    let rr := serializePred rl.2 l
    let ret0 :=
      match rc.1 with
      | d :: ds => { d with left := rc.2, right := rl.2 } :: ds
      | [] => []
    (ret0 ++ rl.1 ++ rr.1, rr.2)

/-! ## The transmit engine (pf_q-transmit.c, lines 111-391)

The drain of one TxRing half.  The shared-memory half is modelled at
descriptor granularity: a list of pfq_pkthdr_tx records (nsec
timestamp and payload length); a record with len = 0, or the end of
the list (the ptr < end bound), terminates traversal, exactly as in
the release build of traverse_tx_queue.

The environment of the engine is an oracle:
  giveupAt: the step count from which giveup_tx_process (pending
    signal or kthread stop request) reads true.  Both conditions are
    sticky in the kernel, so the predicate is monotone in the step
    counter.
  dt: how much the real-time clock advances at each step, making the
    clock monotone by construction.
  xmitOk: whether the n-th ndo_start_xmit submission of the drain
    completes with NETDEV_TX_OK.
  allocOk: whether the n-th pfq_tx_alloc_skb call succeeds.

The engine state St carries the step counter, the current clock value,
and the submission and allocation counters that index the oracle. -/

structure Ora where
  giveupAt : Nat
  dt : Nat → Nat
  xmitOk : Nat → Bool
  allocOk : Nat → Bool

structure St where
  t : Nat
  clk : Nat
  nsub : Nat
  nalloc : Nat
deriving DecidableEq, Repr

/-- Advance the engine state by one primitive step: the step counter
grows and the clock moves by the oracle increment. -/
def stepSt (o : Ora) (s : St) : St :=
  { s with t := s.t + 1, clk := s.clk + o.dt s.t }

/-- Translation of giveup_tx_process: pending signal or kthread stop,
read at the current step. -/
def giveup_tx_process (o : Ora) (s : St) : Bool :=
  decide (o.giveupAt ≤ s.t)

/-- The C bitwise complement on int: for the return convention of
full_batch_xmit, cNot total = -total - 1. -/
def cNot (x : Int) : Int := -x - 1

/-- One packet descriptor of the shared TX ring (struct
pfq_pkthdr_tx, header fields only). -/
structure Desc where
  nsec : Nat
  len : Nat
deriving DecidableEq, Repr

/-- A kernel packet buffer built by the drain: the timestamp of its
descriptor (kept for the pacing property) and the copied length. -/
structure Skb where
  nsec : Nat
  len : Nat
deriving DecidableEq, Repr

/-- One submission handed to ndo_start_xmit: the buffer, the hardware
queue it was mapped to, the xmit_more flag it carried, and the clock
value at the moment of submission. -/
structure SubEv where
  skb : Skb
  queue : Int
  xmit_more : Bool
  time : Nat
deriving DecidableEq, Repr

/-- Translation of wait_until: read the clock, return it on giveup,
otherwise relax and spin until the reading reaches ts.  The fuel
bounds the spin; none means the fuel ran out, not a behaviour of the
code. -/
def wait_until (o : Ora) (ts : Nat) : Nat → St → Option (Nat × St)
  | 0, _ => none
  | fuel + 1, s =>
    let now := s.clk
    let s1 := stepSt o s
    if giveup_tx_process o s1 then some (now, s1)
    else if now < ts then wait_until o ts fuel (stepSt o s1)
    else some (now, s1)

/-- One submission step: the step counter, clock and submission
counter advance. -/
def subStep (o : Ora) (s : St) : St :=
  let s1 := stepSt o s
  { s1 with nsub := s.nsub + 1 }

/-- One allocation step: the step counter, clock and allocation
counter advance. -/
def allocStep (o : Ora) (s : St) : St :=
  let s1 := stepSt o s
  { s1 with nalloc := s.nalloc + 1 }

/-- Translation of the submission loop of pfq_batch_xmit (the body
between the lock and unlock): submit each buffer with queue mapping q
and xmit_more set for every position but the last; stop at the first
result that is not NETDEV_TX_OK, handing back the count of successful
submissions, the submission events, and the remainder that the intr
path frees.  The position argument n tracks the loop index. -/
def batch_xmit_go (o : Ora) (q : Int) (last : Nat) :
    List Skb → Nat → St → Nat × List SubEv × List Skb × St
  | [], _, s => (0, [], [], s)
  | skb :: rest, n, s =>
    let ev : SubEv := ⟨skb, q, decide (n ≠ last), s.clk⟩
    let ok := o.xmitOk s.nsub
    let s1 := subStep o s
    if ok then
      let r := batch_xmit_go o q last rest (n + 1) s1
      (r.1 + 1, ev :: r.2.1, r.2.2.1, r.2.2.2)
    else
      (0, [ev], rest, s1)

/-- Translation of pfq_batch_xmit: resolve the hardware queue through
pfq_pick_tx from the first buffer, take the queue lock once, submit
the whole batch, free the remainder on the first failure.  The result
is the count of NETDEV_TX_OK submissions, the submission events, the
buffers freed by the intr path and the final state. -/
def pfq_batch_xmit (o : Ora) (dev : NetDevice) (hw_queue : Int)
    (skbs : List Skb) (s : St) : Nat × List SubEv × List Skb × St :=
  let q := pfq_pick_tx dev hw_queue
  batch_xmit_go o q (skbs.length - 1) skbs 0 s

/-- Lock-bracketed event of one pfq_batch_xmit call. -/
inductive BxEv where
  | lock
  | sub (ev : SubEv)
  | free (skb : Skb)
  | unlock
deriving DecidableEq, Repr

/-- The ordered events of one pfq_batch_xmit call: the queue lock is
taken once, every submission and every intr-path free happens under
it, and it is released once. -/
def pfq_batch_xmit_trace (o : Ora) (dev : NetDevice) (hw_queue : Int)
    (skbs : List Skb) (s : St) : List BxEv :=
  let r := pfq_batch_xmit o dev hw_queue skbs s
  BxEv.lock :: (r.2.1.map BxEv.sub ++ r.2.2.1.map BxEv.free ++ [BxEv.unlock])

/-- Translation of full_batch_xmit: consume the batch, checking the
giveup condition before every attempt; on giveup return the bitwise
complement of the progress with the unsent buffers still in the batch;
when an attempt moves nothing, relax and retry; otherwise recycle the
sent prefix and continue.  The per-buffer skb_get reference taken
before each attempt keeps retried buffers alive and has no further
observable effect here.  The fuel bounds the retry loop; none means
the fuel ran out. -/
def full_batch_xmit (o : Ora) (dev : NetDevice) (hw_queue : Int) :
    Nat → List Skb → Nat → St → Option (Int × List Skb × List SubEv × St)
  | 0, _, _, _ => none
  | fuel + 1, skbs, total, s =>
    if skbs.length = 0 then some ((total : Int), skbs, [], s)
    else if giveup_tx_process o s then some (cNot total, skbs, [], s)
    else
      let r := pfq_batch_xmit o dev hw_queue skbs s
      if r.1 = 0 then
        match full_batch_xmit o dev hw_queue fuel skbs total (stepSt o r.2.2.2) with
        | none => none
        | some (res, rest, evs, s1) => some (res, rest, r.2.1 ++ evs, s1)
      else
        match full_batch_xmit o dev hw_queue fuel (skbs.drop r.1) (total + r.1) r.2.2.2 with
        | none => none
        | some (res, rest, evs, s1) => some (res, rest, r.2.1 ++ evs, s1)

/-- Translation of transmission_required: the batch is full, or it is
non-empty and the next packet is stamped in the future. -/
def transmission_required (batchLen : Nat) (q : List Skb) (now : Nat)
    (ts : Nat) : Bool :=
  decide (q.length = batchLen) || (decide (0 < q.length) && decide (now < ts))

/-- The contribution of one full_batch_xmit result to tot_sent:
sent when non-negative, its complement when interrupted. -/
def absSent (r : Int) : Nat :=
  if 0 ≤ r then r.toNat else (cNot r).toNat

/-- The submit-if-needed step at the top of the Tx loop of
__pfq_queue_xmit: when transmission_required holds, run
full_batch_xmit and add its progress to tot_sent; the Bool of the
result records whether the loop must break (the batch transmit was
interrupted). -/
def drain_flush (o : Ora) (dev : NetDevice) (hw_queue : Int)
    (fuel batchLen : Nat) (batch : List Skb) (now ts tot : Nat) (s : St) :
    Option (Nat × List Skb × List SubEv × St × Bool) :=
  if transmission_required batchLen batch now ts then
    match full_batch_xmit o dev hw_queue fuel batch 0 s with
    | none => none
    | some (r, batch1, evs1, s1) =>
      some (tot + absSent r, batch1, evs1, s1, decide (r < 0))
  else some (tot, batch, [], s, false)

/-- The pacing step of the Tx loop: when the descriptor timestamp is
in the future of the last clock reading, spin in wait_until. -/
def drain_wait (o : Ora) (fuel : Nat) (now ts : Nat) (s : St) :
    Option (Nat × St) :=
  if now < ts then wait_until o ts fuel s else some (now, s)

/-- Translation of the Tx loop of __pfq_queue_xmit (lines 285-341):
walk the drained half descriptor by descriptor; flush the batch when
transmission_required holds, breaking out on interrupt; pace a future
packet through wait_until; allocate and fill a buffer, breaking out on
allocation failure; push it into the batch and advance.  Returns the
accumulated tot_sent, the batch, the descriptors not consumed by the
loop (the cursor position), the submission events and the state. -/
def drain_loop (o : Ora) (dev : NetDevice) (hw_queue : Int)
    (fuel batchLen max_len : Nat) :
    List Desc → List Skb → Nat → Nat → St →
    Option (Nat × List Skb × List Desc × List SubEv × St)
  | [], batch, _, tot, s => some (tot, batch, [], [], s)
  | hdr :: rest, batch, now, tot, s =>
    if hdr.len = 0 then some (tot, batch, hdr :: rest, [], s)
    else
      match drain_flush o dev hw_queue fuel batchLen batch now hdr.nsec tot s with
      | none => none
      | some (tot1, batch1, evs1, s1, brk) =>
        if brk then some (tot1, batch1, hdr :: rest, evs1, s1)
        else
          match drain_wait o fuel now hdr.nsec s1 with
          | none => none
          | some (now1, s2) =>
            let ok := o.allocOk s2.nalloc
            let s3 := allocStep o s2
            if ok then
              let skb : Skb := ⟨hdr.nsec, min hdr.len max_len⟩
              match drain_loop o dev hw_queue fuel batchLen max_len rest
                      (batch1 ++ [skb]) now1 tot1 s3 with
              | none => none
              | some (tot2, batch2, rem, evs2, s4) =>
                some (tot2, batch2, rem, evs1 ++ evs2, s4)
            else
              some (tot1, batch1, hdr :: rest, evs1, s3)

/-- Translation of the final disc loop of __pfq_queue_xmit: continue
the cursor through the remaining descriptors, counting each one until
the in-band terminator or the end of the half. -/
def count_remaining : List Desc → Nat
  | [] => 0
  | d :: rest => if d.len = 0 then 0 else count_remaining rest + 1

/-- The result of one drain of a TxRing half. -/
structure DrainRes where
  tot_sent : Nat
  disc : Nat
  evs : List SubEv
  state : St
deriving DecidableEq, Repr

/-- Translation of __pfq_queue_xmit after the swap phase (lines
282-390): read the clock, run the Tx loop, flush the residual batch,
free what is left in the batch counting it as discarded, and count the
descriptors the cursor never reached as discarded. -/
def __pfq_queue_xmit (o : Ora) (dev : NetDevice) (hw_queue : Int)
    (fuel batchLen max_len : Nat) (ds : List Desc) (s0 : St) :
    Option DrainRes :=
  let now := s0.clk
  let s1 := stepSt o s0
  match drain_loop o dev hw_queue fuel batchLen max_len ds [] now 0 s1 with
  | none => none
  | some (tot, batch, rem, evs1, s2) =>
    match (if batch.length ≠ 0 then full_batch_xmit o dev hw_queue fuel batch 0 s2
           else some ((0 : Int), batch, [], s2)) with
    | none => none
    | some (r, batch2, evs2, s3) =>
      let tot2 := tot + absSent r
      some ⟨tot2, batch2.length + count_remaining rem, evs1 ++ evs2, s3⟩

/-- Specification-side count: the number of descriptors with non-zero
length in the live region of a half, the region ending at the in-band
terminator or at the end of the half. -/
def numLive (ds : List Desc) : Nat :=
  (ds.takeWhile fun d => decide (d.len ≠ 0)).length

/-! ## Lemmas about the submission loop -/

theorem batch_xmit_go_sent_le (o : Ora) (q : Int) (last : Nat) :
    ∀ (lst : List Skb) (n : Nat) (s : St),
      (batch_xmit_go o q last lst n s).1 ≤ lst.length := by
  intro lst
  induction lst with
  | nil => intro n s; simp [batch_xmit_go]
  | cons skb rest ih =>
    intro n s
    simp only [batch_xmit_go]
    split
    · have h := ih (n + 1) (subStep o s)
      simpa using Nat.succ_le_succ h
    · simp

theorem batch_xmit_go_st (o : Ora) (q : Int) (last : Nat) :
    ∀ (lst : List Skb) (n : Nat) (s : St),
      s.t ≤ (batch_xmit_go o q last lst n s).2.2.2.t ∧
      s.clk ≤ (batch_xmit_go o q last lst n s).2.2.2.clk := by
  intro lst
  induction lst with
  | nil => intro n s; simp [batch_xmit_go]
  | cons skb rest ih =>
    intro n s
    have hs : s.t ≤ (subStep o s).t ∧ s.clk ≤ (subStep o s).clk := by
      simp [subStep, stepSt]
    simp only [batch_xmit_go]
    split
    · have h := ih (n + 1) (subStep o s)
      exact ⟨le_trans hs.1 h.1, le_trans hs.2 h.2⟩
    · exact hs

theorem batch_xmit_go_evs (o : Ora) (q : Int) (last : Nat) :
    ∀ (lst : List Skb) (n : Nat) (s : St),
      ∀ ev ∈ (batch_xmit_go o q last lst n s).2.1,
        ev.skb ∈ lst ∧ s.clk ≤ ev.time := by
  intro lst
  induction lst with
  | nil => intro n s ev hev; simp [batch_xmit_go] at hev
  | cons skb rest ih =>
    intro n s ev hev
    have hs : s.clk ≤ (subStep o s).clk := by simp [subStep, stepSt]
    simp only [batch_xmit_go] at hev
    split at hev
    · rcases List.mem_cons.mp hev with h | h
      · subst h; simp
      · have := ih (n + 1) (subStep o s) ev h
        exact ⟨List.mem_cons_of_mem _ this.1, le_trans hs this.2⟩
    · rcases List.mem_cons.mp hev with h | h
      · subst h; simp
      · simp at h

theorem batch_xmit_go_spec (o : Ora) (q : Int) (last : Nat) :
    ∀ (lst : List Skb) (n : Nat) (s : St) (ret : Nat) (subs : List SubEv)
      (freed : List Skb) (s' : St),
      batch_xmit_go o q last lst n s = (ret, subs, freed, s') →
      subs.map SubEv.skb = lst.take subs.length ∧
      (∀ i, (hi : i < subs.length) →
        (subs.get ⟨i, hi⟩).xmit_more = decide (n + i ≠ last)) ∧
      (∀ ev ∈ subs, ev.queue = q) ∧
      ((∀ k, k < lst.length → o.xmitOk (s.nsub + k) = true) →
        ret = lst.length ∧ subs.length = lst.length ∧ freed = []) ∧
      (∀ j, j < lst.length → o.xmitOk (s.nsub + j) = false →
        (∀ m, m < j → o.xmitOk (s.nsub + m) = true) →
        ret = j ∧ subs.length = j + 1 ∧ freed = lst.drop (j + 1)) := by
  intro lst
  induction lst with
  | nil =>
    intro n s ret subs freed s' h
    simp only [batch_xmit_go] at h
    injection h with h1 h2
    injection h2 with h2 h3
    injection h3 with h3 h4
    subst h1 h2 h3
    refine ⟨?_, ?_, ?_, ?_, ?_⟩ <;> simp_all
  | cons skb rest ih =>
    intro n s ret subs freed s' h
    have hnsub : (subStep o s).nsub = s.nsub + 1 := by simp [subStep, stepSt]
    simp only [batch_xmit_go] at h
    split at h
    case isTrue hok =>
      injection h with hret h2
      injection h2 with hsubs h3
      injection h3 with hfreed hst
      obtain ⟨hmap, hflag, hq, hfull, hfail⟩ :=
        ih (n + 1) (subStep o s)
          (batch_xmit_go o q last rest (n + 1) (subStep o s)).1
          (batch_xmit_go o q last rest (n + 1) (subStep o s)).2.1
          (batch_xmit_go o q last rest (n + 1) (subStep o s)).2.2.1
          (batch_xmit_go o q last rest (n + 1) (subStep o s)).2.2.2 rfl
      subst hret hsubs hfreed
      refine ⟨?_, ?_, ?_, ?_, ?_⟩
      · simpa [List.take_succ_cons] using congrArg (skb :: ·) hmap
      · intro i hi
        match i with
        | 0 => simp
        | i + 1 =>
          have hi' : i < (batch_xmit_go o q last rest (n + 1) (subStep o s)).2.1.length := by
            simpa using Nat.lt_of_succ_lt_succ hi
          have := hflag i hi'
          simpa [show n + 1 + i = n + (i + 1) by omega] using this
      · intro ev hev
        rcases List.mem_cons.mp hev with hh | hh
        · subst hh; rfl
        · exact hq ev hh
      · intro hall
        have hall' : ∀ k, k < rest.length →
            o.xmitOk ((subStep o s).nsub + k) = true := by
          intro k hk
          have := hall (k + 1) (by simpa using Nat.succ_lt_succ hk)
          simpa [hnsub, show s.nsub + 1 + k = s.nsub + (k + 1) by omega] using this
        obtain ⟨h1, h2, h3⟩ := hfull hall'
        exact ⟨by simp [h1], by simp [h2], h3⟩
      · intro j hj hbad hgood
        match j with
        | 0 =>
          exfalso
          simp only [Nat.add_zero] at hbad
          rw [hok] at hbad
          simp at hbad
        | j + 1 =>
          have hbad' : o.xmitOk ((subStep o s).nsub + j) = false := by
            simpa [hnsub, show s.nsub + 1 + j = s.nsub + (j + 1) by omega] using hbad
          have hgood' : ∀ m, m < j → o.xmitOk ((subStep o s).nsub + m) = true := by
            intro m hm
            have := hgood (m + 1) (by omega)
            simpa [hnsub, show s.nsub + 1 + m = s.nsub + (m + 1) by omega] using this
          obtain ⟨h1, h2, h3⟩ :=
            hfail j (by simpa using Nat.lt_of_succ_lt_succ hj) hbad' hgood'
          exact ⟨by simp [h1], by simp [h2], by simpa using h3⟩
    case isFalse hok =>
      injection h with hret h2
      injection h2 with hsubs h3
      injection h3 with hfreed hst
      subst hret hsubs hfreed
      have hokf : o.xmitOk s.nsub = false := by
        revert hok; cases o.xmitOk s.nsub <;> simp
      refine ⟨by simp, ?_, ?_, ?_, ?_⟩
      · intro i hi
        match i with
        | 0 => simp
        | i + 1 => simp at hi
      · intro ev hev
        rcases List.mem_cons.mp hev with hh | hh
        · subst hh; rfl
        · simp at hh
      · intro hall
        exfalso
        have := hall 0 (by simp)
        rw [Nat.add_zero, hokf] at this
        exact Bool.false_ne_true this
      · intro j hj hbad hgood
        match j with
        | 0 => exact ⟨rfl, rfl, by simp⟩
        | j + 1 =>
          exfalso
          have := hgood 0 (by omega)
          rw [Nat.add_zero, hokf] at this
          exact Bool.false_ne_true this

/-! ## Lemmas about full_batch_xmit and wait_until -/

theorem stepSt_le (o : Ora) (s : St) :
    s.t ≤ (stepSt o s).t ∧ s.clk ≤ (stepSt o s).clk := by
  simp [stepSt]

theorem cNot_cNot (x : Int) : cNot (cNot x) = x := by
  simp [cNot]

theorem cNot_natCast_neg (n : Nat) : cNot (n : Int) < 0 := by
  simp only [cNot]
  omega

theorem absSent_natCast (n : Nat) : absSent (n : Int) = n := by
  simp [absSent]

theorem absSent_cNot_natCast (n : Nat) : absSent (cNot (n : Int)) = n := by
  have h := cNot_natCast_neg n
  simp only [absSent, if_neg (by omega : ¬ (0 : Int) ≤ cNot (n : Int)), cNot_cNot]
  exact Int.toNat_natCast n

theorem wait_until_spec (o : Ora) (ts : Nat) :
    ∀ (fuel : Nat) (s : St) (now : Nat) (s' : St),
      wait_until o ts fuel s = some (now, s') →
      now ≤ s'.clk ∧ s.clk ≤ s'.clk ∧ s.t ≤ s'.t ∧
      (ts ≤ now ∨ o.giveupAt ≤ s'.t) := by
  intro fuel
  induction fuel with
  | zero => intro s now s' h; simp [wait_until] at h
  | succ fuel ih =>
    intro s now s' h
    simp only [wait_until] at h
    split at h
    case isTrue hg =>
      injection h with hp
      injection hp with h1 h2
      subst h1 h2
      have := stepSt_le o s
      refine ⟨this.2, this.2, this.1, Or.inr ?_⟩
      simpa [giveup_tx_process] using hg
    case isFalse hg =>
      split at h
      case isTrue hlt =>
        obtain ⟨h1, h2, h3, h4⟩ := ih (stepSt o (stepSt o s)) now s' h
        have ha := stepSt_le o s
        have hb := stepSt_le o (stepSt o s)
        exact ⟨h1, le_trans ha.2 (le_trans hb.2 h2),
               le_trans ha.1 (le_trans hb.1 h3), h4⟩
      case isFalse hlt =>
        injection h with hp
        injection hp with h1 h2
        subst h1 h2
        have := stepSt_le o s
        exact ⟨this.2, this.2, this.1, Or.inl (by omega)⟩

theorem full_batch_xmit_st (o : Ora) (dev : NetDevice) (hw_queue : Int) :
    ∀ (fuel : Nat) (skbs : List Skb) (total : Nat) (s : St)
      (r : Int) (rest : List Skb) (evs : List SubEv) (s' : St),
      full_batch_xmit o dev hw_queue fuel skbs total s = some (r, rest, evs, s') →
      s.t ≤ s'.t ∧ s.clk ≤ s'.clk := by
  intro fuel
  induction fuel with
  | zero => intro skbs total s r rest evs s' h; simp [full_batch_xmit] at h
  | succ fuel ih =>
    intro skbs total s r rest evs s' h
    simp only [full_batch_xmit] at h
    split at h
    · injection h with hp
      injection hp with h1 h2
      injection h2 with h2 h3
      injection h3 with h3 h4
      subst h4
      exact ⟨le_refl _, le_refl _⟩
    · split at h
      · injection h with hp
        injection hp with h1 h2
        injection h2 with h2 h3
        injection h3 with h3 h4
        subst h4
        exact ⟨le_refl _, le_refl _⟩
      · have hgo := batch_xmit_go_st o (pfq_pick_tx dev hw_queue)
          (skbs.length - 1) skbs 0 s
        split at h
        · split at h
          · exact absurd h (by simp)
          case _ res rest1 evs1 s1 heq =>
            injection h with hp
            injection hp with h1 h2
            injection h2 with h2 h3
            injection h3 with h3 h4
            subst h1 h3 h4
            obtain ⟨ha, hb⟩ := ih _ _ _ _ _ _ _ heq
            have hs := stepSt_le o (pfq_batch_xmit o dev hw_queue skbs s).2.2.2
            exact ⟨le_trans hgo.1 (le_trans hs.1 ha),
                   le_trans hgo.2 (le_trans hs.2 hb)⟩
        · split at h
          · exact absurd h (by simp)
          case _ res rest1 evs1 s1 heq =>
            injection h with hp
            injection hp with h1 h2
            injection h2 with h2 h3
            injection h3 with h3 h4
            subst h1 h3 h4
            obtain ⟨ha, hb⟩ := ih _ _ _ _ _ _ _ heq
            exact ⟨le_trans hgo.1 ha, le_trans hgo.2 hb⟩

theorem full_batch_xmit_acct (o : Ora) (dev : NetDevice) (hw_queue : Int) :
    ∀ (fuel : Nat) (skbs : List Skb) (total : Nat) (s : St)
      (r : Int) (rest : List Skb) (evs : List SubEv) (s' : St),
      full_batch_xmit o dev hw_queue fuel skbs total s = some (r, rest, evs, s') →
      absSent r + rest.length = total + skbs.length ∧
      (0 ≤ r → rest = []) ∧
      (r < 0 → rest ≠ []) ∧
      rest <:+ skbs ∧
      (r < 0 → o.giveupAt ≤ s'.t) := by
  intro fuel
  induction fuel with
  | zero => intro skbs total s r rest evs s' h; simp [full_batch_xmit] at h
  | succ fuel ih =>
    intro skbs total s r rest evs s' h
    simp only [full_batch_xmit] at h
    split at h
    case isTrue hlen =>
      injection h with hp
      injection hp with h1 h2
      injection h2 with h2 h3
      injection h3 with h3 h4
      subst h1 h2 h4
      have hnil : skbs = [] := List.length_eq_zero.mp hlen
      subst hnil
      refine ⟨by simp [absSent_natCast], fun _ => rfl, ?_, List.nil_suffix, ?_⟩
      · intro hneg; exact absurd hneg (by simp)
      · intro hneg; exact absurd hneg (by simp)
    case isFalse hlen =>
      split at h
      case isTrue hg =>
        injection h with hp
        injection hp with h1 h2
        injection h2 with h2 h3
        injection h3 with h3 h4
        subst h1 h2 h4
        refine ⟨by simp [absSent_cNot_natCast], ?_, ?_, List.suffix_refl _, ?_⟩
        · intro hpos
          exact absurd (cNot_natCast_neg total) (by omega)
        · intro _ hempty
          exact hlen (by simp [hempty])
        · intro _
          simpa [giveup_tx_process] using hg
      case isFalse hg =>
        have hsent := batch_xmit_go_sent_le o (pfq_pick_tx dev hw_queue)
          (skbs.length - 1) skbs 0 s
        split at h
        · split at h
          · exact absurd h (by simp)
          case _ res rest1 evs1 s1 heq =>
            injection h with hp
            injection hp with h1 h2
            injection h2 with h2 h3
            injection h3 with h3 h4
            subst h1 h2 h3 h4
            exact ih _ _ _ _ _ _ _ heq
        · split at h
          · exact absurd h (by simp)
          case _ res rest1 evs1 s1 heq =>
            injection h with hp
            injection hp with h1 h2
            injection h2 with h2 h3
            injection h3 with h3 h4
            subst h1 h2 h3 h4
            obtain ⟨ha, hb, hc, hd, he⟩ := ih _ _ _ _ _ _ _ heq
            have hdrop : (skbs.drop (pfq_batch_xmit o dev hw_queue skbs s).1).length =
                skbs.length - (pfq_batch_xmit o dev hw_queue skbs s).1 :=
              List.length_drop _ _
            refine ⟨?_, hb, hc, hd.trans (List.drop_suffix _ _), he⟩
            rw [hdrop] at ha
            have : (pfq_batch_xmit o dev hw_queue skbs s).1 ≤ skbs.length := hsent
            omega

theorem full_batch_xmit_giveup_evs (o : Ora) (dev : NetDevice) (hw_queue : Int)
    (fuel : Nat) (skbs : List Skb) (total : Nat) (s : St)
    (r : Int) (rest : List Skb) (evs : List SubEv) (s' : St)
    (hg : o.giveupAt ≤ s.t)
    (h : full_batch_xmit o dev hw_queue fuel skbs total s = some (r, rest, evs, s')) :
    evs = [] := by
  match fuel with
  | 0 => simp [full_batch_xmit] at h
  | fuel + 1 =>
    simp only [full_batch_xmit] at h
    split at h
    · injection h with hp
      injection hp with h1 h2
      injection h2 with h2 h3
      injection h3 with h3 h4
      exact h3.symm
    · split at h
      · injection h with hp
        injection hp with h1 h2
        injection h2 with h2 h3
        injection h3 with h3 h4
        exact h3.symm
      case isFalse hng =>
        exact absurd (by simpa [giveup_tx_process] using hg) hng

theorem full_batch_xmit_evs (o : Ora) (dev : NetDevice) (hw_queue : Int) :
    ∀ (fuel : Nat) (skbs : List Skb) (total : Nat) (s : St)
      (r : Int) (rest : List Skb) (evs : List SubEv) (s' : St),
      full_batch_xmit o dev hw_queue fuel skbs total s = some (r, rest, evs, s') →
      (∀ x ∈ skbs, x.nsec ≤ s.clk) →
      ∀ ev ∈ evs, ev.skb.nsec ≤ ev.time := by
  intro fuel
  induction fuel with
  | zero => intro skbs total s r rest evs s' h; simp [full_batch_xmit] at h
  | succ fuel ih =>
    intro skbs total s r rest evs s' h hb
    simp only [full_batch_xmit] at h
    split at h
    · injection h with hp
      injection hp with h1 h2
      injection h2 with h2 h3
      injection h3 with h3 h4
      subst h3
      intro ev hev; simp at hev
    · split at h
      · injection h with hp
        injection hp with h1 h2
        injection h2 with h2 h3
        injection h3 with h3 h4
        subst h3
        intro ev hev; simp at hev
      · have hgoev := batch_xmit_go_evs o (pfq_pick_tx dev hw_queue)
          (skbs.length - 1) skbs 0 s
        have hgost := batch_xmit_go_st o (pfq_pick_tx dev hw_queue)
          (skbs.length - 1) skbs 0 s
        split at h
        · split at h
          · exact absurd h (by simp)
          case _ res rest1 evs1 s1 heq =>
            injection h with hp
            injection hp with h1 h2
            injection h2 with h2 h3
            injection h3 with h3 h4
            subst h1 h3 h4
            intro ev hev
            rcases List.mem_append.mp hev with hm | hm
            · obtain ⟨hin, hclk⟩ := hgoev ev hm
              exact le_trans (hb _ hin) (le_trans hclk (le_refl _))
            · refine ih _ _ _ _ _ _ _ heq ?_ ev hm
              intro x hx
              have hstep := stepSt_le o (pfq_batch_xmit o dev hw_queue skbs s).2.2.2
              exact le_trans (hb x hx) (le_trans hgost.2 hstep.2)
        · split at h
          · exact absurd h (by simp)
          case _ res rest1 evs1 s1 heq =>
            injection h with hp
            injection hp with h1 h2
            injection h2 with h2 h3
            injection h3 with h3 h4
            subst h1 h3 h4
            intro ev hev
            rcases List.mem_append.mp hev with hm | hm
            · obtain ⟨hin, hclk⟩ := hgoev ev hm
              exact le_trans (hb _ hin) hclk
            · refine ih _ _ _ _ _ _ _ heq ?_ ev hm
              intro x hx
              have hin : x ∈ skbs :=
                (List.drop_suffix _ _).subset hx
              exact le_trans (hb x hin) hgost.2

/-! ## Lemmas about the drain loop -/

theorem allocStep_le (o : Ora) (s : St) :
    s.t ≤ (allocStep o s).t ∧ s.clk ≤ (allocStep o s).clk := by
  simp [allocStep, stepSt]

theorem numLive_cons_zero (d : Desc) (rest : List Desc) (h : d.len = 0) :
    numLive (d :: rest) = 0 := by
  simp [numLive, List.takeWhile, h]

theorem numLive_cons_pos (d : Desc) (rest : List Desc) (h : d.len ≠ 0) :
    numLive (d :: rest) = numLive rest + 1 := by
  simp [numLive, List.takeWhile, h]

theorem count_remaining_eq_numLive : ∀ ds : List Desc,
    count_remaining ds = numLive ds := by
  intro ds
  induction ds with
  | nil => simp [count_remaining, numLive]
  | cons d rest ih =>
    by_cases h : d.len = 0
    · simp [count_remaining, h, numLive_cons_zero d rest h]
    · simp [count_remaining, h, numLive_cons_pos d rest h, ih]

theorem drain_flush_spec (o : Ora) (dev : NetDevice) (hw_queue : Int)
    (fuel batchLen : Nat) (batch : List Skb) (now ts tot : Nat) (s : St)
    (tot1 : Nat) (batch1 : List Skb) (evs1 : List SubEv) (s1 : St) (brk : Bool)
    (h : drain_flush o dev hw_queue fuel batchLen batch now ts tot s =
         some (tot1, batch1, evs1, s1, brk)) :
    tot1 + batch1.length = tot + batch.length ∧
    batch1 <:+ batch ∧
    s.t ≤ s1.t ∧ s.clk ≤ s1.clk ∧
    (brk = true → o.giveupAt ≤ s1.t) ∧
    ((∀ x ∈ batch, x.nsec ≤ s.clk) → ∀ ev ∈ evs1, ev.skb.nsec ≤ ev.time) ∧
    (o.giveupAt ≤ s.t → evs1 = []) := by
  simp only [drain_flush] at h
  split at h
  · split at h
    · exact absurd h (by simp)
    case _ r b1 e1 s1' heq =>
      injection h with hp
      injection hp with h1 h2
      injection h2 with h2 h3
      injection h3 with h3 h4
      injection h4 with h4 h5
      subst h1 h2 h3 h4 h5
      obtain ⟨ha, hb, hc, hd, he⟩ :=
        full_batch_xmit_acct o dev hw_queue fuel batch 0 s r b1 e1 s1' heq
      obtain ⟨hst, hsc⟩ := full_batch_xmit_st o dev hw_queue fuel batch 0 s r b1 e1 s1' heq
      refine ⟨by omega, hd, hst, hsc, ?_, ?_, ?_⟩
      · intro hbrk
        exact he (by simpa using of_decide_eq_true hbrk)
      · intro hall
        exact full_batch_xmit_evs o dev hw_queue fuel batch 0 s r b1 e1 s1' heq hall
      · intro hg
        exact full_batch_xmit_giveup_evs o dev hw_queue fuel batch 0 s r b1 e1 s1' hg heq
  · injection h with hp
    injection hp with h1 h2
    injection h2 with h2 h3
    injection h3 with h3 h4
    injection h4 with h4 h5
    subst h1 h2 h3 h4 h5
    refine ⟨rfl, List.suffix_refl _, le_refl _, le_refl _, ?_, ?_, ?_⟩
    · intro hbrk; exact absurd hbrk (by simp)
    · intro _ ev hev; simp at hev
    · intro _; rfl

theorem drain_wait_spec (o : Ora) (fuel : Nat) (now ts : Nat) (s : St)
    (now1 : Nat) (s' : St)
    (h : drain_wait o fuel now ts s = some (now1, s'))
    (hnow : now ≤ s.clk) :
    now1 ≤ s'.clk ∧ s.clk ≤ s'.clk ∧ s.t ≤ s'.t ∧
    (ts ≤ now1 ∨ o.giveupAt ≤ s'.t) := by
  simp only [drain_wait] at h
  split at h
  case isTrue hlt =>
    exact wait_until_spec o ts fuel s now1 s' h
  case isFalse hlt =>
    injection h with hp
    injection hp with h1 h2
    subst h1 h2
    exact ⟨hnow, le_refl _, le_refl _, Or.inl (by omega)⟩

theorem drain_loop_acct (o : Ora) (dev : NetDevice) (hw_queue : Int)
    (fuel batchLen max_len : Nat) :
    ∀ (ds : List Desc) (batch : List Skb) (now tot : Nat) (s : St)
      (tot' : Nat) (b' : List Skb) (rem : List Desc) (evs : List SubEv) (s' : St),
      drain_loop o dev hw_queue fuel batchLen max_len ds batch now tot s =
        some (tot', b', rem, evs, s') →
      tot' + b'.length + numLive rem = tot + batch.length + numLive ds := by
  intro ds
  induction ds with
  | nil =>
    intro batch now tot s tot' b' rem evs s' h
    simp only [drain_loop] at h
    injection h with hp
    injection hp with h1 h2
    injection h2 with h2 h3
    injection h3 with h3 h4
    subst h1 h2 h3
    simp [numLive]
  | cons hdr rest ih =>
    intro batch now tot s tot' b' rem evs s' h
    simp only [drain_loop] at h
    split at h
    case isTrue hz =>
      injection h with hp
      injection hp with h1 h2
      injection h2 with h2 h3
      injection h3 with h3 h4
      subst h1 h2 h3
      simp [numLive_cons_zero hdr rest hz]
    case isFalse hz =>
      split at h
      · exact absurd h (by simp)
      case _ tot1 batch1 evs1 s1 brk heqf =>
        obtain ⟨hfl, _, _, _, _, _, _⟩ :=
          drain_flush_spec o dev hw_queue fuel batchLen batch now hdr.nsec tot s
            tot1 batch1 evs1 s1 brk heqf
        split at h
        case isTrue hbrk =>
          injection h with hp
          injection hp with h1 h2
          injection h2 with h2 h3
          injection h3 with h3 h4
          subst h1 h2 h3
          omega
        case isFalse hbrk =>
          split at h
          · exact absurd h (by simp)
          case _ now1 s2 heqw =>
            split at h
            case isTrue hok =>
              split at h
              · exact absurd h (by simp)
              case _ tot2 batch2 rem2 evs2 s4 heqr =>
                injection h with hp
                injection hp with h1 h2
                injection h2 with h2 h3
                injection h3 with h3 h4
                subst h1 h2 h3
                have hrec := ih (batch1 ++ [⟨hdr.nsec, min hdr.len max_len⟩])
                  now1 tot1 (allocStep o s2) tot2 batch2 rem2 evs2 s4 heqr
                rw [numLive_cons_pos hdr rest hz]
                simp only [List.length_append, List.length_singleton] at hrec
                omega
            case isFalse hok =>
              injection h with hp
              injection hp with h1 h2
              injection h2 with h2 h3
              injection h3 with h3 h4
              subst h1 h2 h3
              omega

theorem drain_loop_evs (o : Ora) (dev : NetDevice) (hw_queue : Int)
    (fuel batchLen max_len : Nat) :
    ∀ (ds : List Desc) (batch : List Skb) (now tot : Nat) (s : St)
      (tot' : Nat) (b' : List Skb) (rem : List Desc) (evs : List SubEv) (s' : St),
      drain_loop o dev hw_queue fuel batchLen max_len ds batch now tot s =
        some (tot', b', rem, evs, s') →
      now ≤ s.clk →
      ((∀ x ∈ batch, x.nsec ≤ s.clk) ∨ o.giveupAt ≤ s.t) →
      (∀ ev ∈ evs, ev.skb.nsec ≤ ev.time) ∧
      ((∀ x ∈ b', x.nsec ≤ s'.clk) ∨ o.giveupAt ≤ s'.t) := by
  intro ds
  induction ds with
  | nil =>
    intro batch now tot s tot' b' rem evs s' h hnow hinv
    simp only [drain_loop] at h
    injection h with hp
    injection hp with h1 h2
    injection h2 with h2 h3
    injection h3 with h3 h4
    injection h4 with h4 h5
    subst h1 h2 h3 h4 h5
    exact ⟨by intro ev hev; simp at hev, hinv⟩
  | cons hdr rest ih =>
    intro batch now tot s tot' b' rem evs s' h hnow hinv
    simp only [drain_loop] at h
    split at h
    case isTrue hz =>
      injection h with hp
      injection hp with h1 h2
      injection h2 with h2 h3
      injection h3 with h3 h4
      injection h4 with h4 h5
      subst h1 h2 h3 h4 h5
      exact ⟨by intro ev hev; simp at hev, hinv⟩
    case isFalse hz =>
      split at h
      · exact absurd h (by simp)
      case _ tot1 batch1 evs1 s1 brk heqf =>
        obtain ⟨_, hsuf, hft, hfc, hfbrk, hfev, hfgu⟩ :=
          drain_flush_spec o dev hw_queue fuel batchLen batch now hdr.nsec tot s
            tot1 batch1 evs1 s1 brk heqf
        have hevs1 : ∀ ev ∈ evs1, ev.skb.nsec ≤ ev.time := by
          rcases hinv with hb | hg
          · exact hfev hb
          · intro ev hev
            rw [hfgu hg] at hev
            simp at hev
        have hinv1 : (∀ x ∈ batch1, x.nsec ≤ s1.clk) ∨ o.giveupAt ≤ s1.t := by
          rcases hinv with hb | hg
          · exact Or.inl fun x hx => le_trans (hb x (hsuf.subset hx)) hfc
          · exact Or.inr (le_trans hg hft)
        split at h
        case isTrue hbrk =>
          injection h with hp
          injection hp with h1 h2
          injection h2 with h2 h3
          injection h3 with h3 h4
          injection h4 with h4 h5
          subst h1 h2 h3 h4 h5
          exact ⟨hevs1, hinv1⟩
        case isFalse hbrk =>
          split at h
          · exact absurd h (by simp)
          case _ now1 s2 heqw =>
            obtain ⟨hw1, hw2, hw3, hw4⟩ :=
              drain_wait_spec o fuel now hdr.nsec s1 now1 s2 heqw
                (le_trans hnow hfc)
            have hstep := allocStep_le o s2
            split at h
            case isTrue hok =>
              split at h
              · exact absurd h (by simp)
              case _ tot2 batch2 rem2 evs2 s4 heqr =>
                injection h with hp
                injection hp with h1 h2
                injection h2 with h2 h3
                injection h3 with h3 h4
                injection h4 with h4 h5
                subst h1 h2 h3 h4 h5
                have hinv2 : (∀ x ∈ batch1 ++ [(⟨hdr.nsec, min hdr.len max_len⟩ : Skb)],
                    x.nsec ≤ (allocStep o s2).clk) ∨ o.giveupAt ≤ (allocStep o s2).t := by
                  rcases hw4 with hpace | hg
                  · rcases hinv1 with hb | hg1
                    · refine Or.inl fun x hx => ?_
                      rcases List.mem_append.mp hx with hx1 | hx1
                      · exact le_trans (hb x hx1) (le_trans hw2 hstep.2)
                      · have : x = (⟨hdr.nsec, min hdr.len max_len⟩ : Skb) := by
                          simpa using hx1
                        subst this
                        exact le_trans hpace (le_trans hw1 hstep.2)
                    · exact Or.inr (le_trans hg1 (le_trans hw3 hstep.1))
                  · exact Or.inr (le_trans hg hstep.1)
                obtain ⟨hrecev, hrecinv⟩ :=
                  ih (batch1 ++ [⟨hdr.nsec, min hdr.len max_len⟩]) now1 tot1
                    (allocStep o s2) tot2 batch2 rem2 evs2 s4 heqr
                    (le_trans hw1 hstep.2) hinv2
                refine ⟨?_, hrecinv⟩
                intro ev hev
                rcases List.mem_append.mp hev with hm | hm
                · exact hevs1 ev hm
                · exact hrecev ev hm
            case isFalse hok =>
              injection h with hp
              injection hp with h1 h2
              injection h2 with h2 h3
              injection h3 with h3 h4
              injection h4 with h4 h5
              subst h1 h2 h3 h4 h5
              refine ⟨hevs1, ?_⟩
              rcases hinv1 with hb | hg
              · exact Or.inl fun x hx =>
                  le_trans (hb x hx) (le_trans hw2 hstep.2)
              · exact Or.inr (le_trans hg (le_trans hw3 hstep.1))

/-! ## Claim theorems for the transmit engine -/

/-- C4: full_batch_xmit, called on any non-empty batch, returns a
non-negative value equal to the number of buffers transmitted when it
runs the batch to completion, and returns the bitwise complement of
the progress (a negative value whose complement is the number
transmitted so far) when the give-up condition interrupts it mid-way,
leaving the unsent buffers still in the batch (a suffix of it). -/
theorem full_batch_xmit_contract (o : Ora) (dev : NetDevice) (hw_queue : Int)
    (fuel : Nat) (skbs : List Skb) (s : St)
    (r : Int) (rest : List Skb) (evs : List SubEv) (s' : St)
    (_hne : skbs ≠ [])
    (h : full_batch_xmit o dev hw_queue fuel skbs 0 s = some (r, rest, evs, s')) :
    (0 ≤ r ∧ r.toNat = skbs.length ∧ rest = []) ∨
    (r < 0 ∧ (cNot r).toNat + rest.length = skbs.length ∧ rest ≠ [] ∧
     rest <:+ skbs ∧ o.giveupAt ≤ s'.t) := by
  obtain ⟨ha, hb, hc, hd, he⟩ :=
    full_batch_xmit_acct o dev hw_queue fuel skbs 0 s r rest evs s' h
  rcases le_or_lt 0 r with hr | hr
  · left
    have hrest := hb hr
    subst hrest
    refine ⟨hr, ?_, rfl⟩
    simpa [absSent, hr] using ha
  · right
    refine ⟨hr, ?_, hc hr, hd, he hr⟩
    simpa [absSent, not_le.mpr hr] using ha

/-- Oracle used by the concrete engine witnesses: giveup never fires
within the runs, the clock advances by one at every step, every driver
submission completes with NETDEV_TX_OK, every allocation succeeds. -/
def oAll : Ora := ⟨1000000, fun _ => 1, fun _ => true, fun _ => true⟩

/-- A single-queue device used by the concrete engine witnesses. -/
def devOne : NetDevice := ⟨1, 0⟩

/-- Submission events of the concrete full_batch_xmit witness run. -/
def fbxEvsW : List SubEv :=
  [⟨⟨0, 10⟩, 0, true, 0⟩, ⟨⟨0, 20⟩, 0, false, 1⟩]

theorem full_batch_xmit_contract_witness :
    (2 : Int).toNat = ([⟨0, 10⟩, ⟨0, 20⟩] : List Skb).length := by
  have h := full_batch_xmit_contract oAll devOne 0 10 [⟨0, 10⟩, ⟨0, 20⟩]
    ⟨0, 0, 0, 0⟩ 2 [] fbxEvsW ⟨2, 2, 2, 0⟩ (by decide) (by rfl)
  rcases h with ⟨_, h2, _⟩ | ⟨hneg, _⟩
  · exact h2
  · exact absurd hneg (by decide)

/-- C6: for every non-empty batch of K buffers submitted via
pfq_batch_xmit, the submissions occur in batch order under a single
hold of the TX queue lock; the flag of the i-th submission is
xmit_more exactly when i is not the last position K - 1 (so in a full
run the first K - 1 submissions carry xmit_more and exactly the last
does not); all submissions go to the single queue picked for the
batch; when every driver result is OK all K buffers are submitted and
none is freed; on the first non-OK result at position j the remaining
buffers after j are freed and the count j of successful submissions is
returned. -/
theorem pfq_batch_xmit_spec (o : Ora) (dev : NetDevice) (hw_queue : Int)
    (skbs : List Skb) (s : St) (ret : Nat) (subs : List SubEv)
    (freed : List Skb) (s' : St)
    (_hne : skbs ≠ [])
    (h : pfq_batch_xmit o dev hw_queue skbs s = (ret, subs, freed, s')) :
    subs.map SubEv.skb = skbs.take subs.length ∧
    (∀ i, (hi : i < subs.length) →
      (subs.get ⟨i, hi⟩).xmit_more = decide (i ≠ skbs.length - 1)) ∧
    (∀ ev ∈ subs, ev.queue = pfq_pick_tx dev hw_queue) ∧
    ((∀ n, n < skbs.length → o.xmitOk (s.nsub + n) = true) →
      ret = skbs.length ∧ subs.length = skbs.length ∧ freed = []) ∧
    (∀ j, j < skbs.length → o.xmitOk (s.nsub + j) = false →
      (∀ m, m < j → o.xmitOk (s.nsub + m) = true) →
      ret = j ∧ subs.length = j + 1 ∧ freed = skbs.drop (j + 1)) ∧
    pfq_batch_xmit_trace o dev hw_queue skbs s =
      BxEv.lock :: (subs.map BxEv.sub ++ freed.map BxEv.free ++ [BxEv.unlock]) := by
  have hgo := batch_xmit_go_spec o (pfq_pick_tx dev hw_queue)
    (skbs.length - 1) skbs 0 s ret subs freed s'
    (by simpa [pfq_batch_xmit] using h)
  obtain ⟨hmap, hflag, hq, hfull, hfail⟩ := hgo
  refine ⟨hmap, ?_, hq, hfull, hfail, ?_⟩
  · intro i hi
    have := hflag i hi
    rwa [Nat.zero_add] at this
  · simp only [pfq_batch_xmit_trace, h]

theorem pfq_batch_xmit_spec_witness :
    (pfq_batch_xmit oAll devOne 0 [⟨0, 10⟩, ⟨0, 20⟩] ⟨0, 0, 0, 0⟩).1 = 2 ∧
    (pfq_batch_xmit oAll devOne 0 [⟨0, 10⟩, ⟨0, 20⟩] ⟨0, 0, 0, 0⟩).2.1.length = 2 ∧
    (pfq_batch_xmit oAll devOne 0 [⟨0, 10⟩, ⟨0, 20⟩] ⟨0, 0, 0, 0⟩).2.2.1 = [] := by
  have h := pfq_batch_xmit_spec oAll devOne 0 [⟨0, 10⟩, ⟨0, 20⟩] ⟨0, 0, 0, 0⟩
    (pfq_batch_xmit oAll devOne 0 [⟨0, 10⟩, ⟨0, 20⟩] ⟨0, 0, 0, 0⟩).1
    (pfq_batch_xmit oAll devOne 0 [⟨0, 10⟩, ⟨0, 20⟩] ⟨0, 0, 0, 0⟩).2.1
    (pfq_batch_xmit oAll devOne 0 [⟨0, 10⟩, ⟨0, 20⟩] ⟨0, 0, 0, 0⟩).2.2.1
    (pfq_batch_xmit oAll devOne 0 [⟨0, 10⟩, ⟨0, 20⟩] ⟨0, 0, 0, 0⟩).2.2.2
    (by decide) rfl
  have h2 := h.2.2.2.1 (by decide)
  exact ⟨h2.1, h2.2.1, h2.2.2⟩

/-- C1: for every drain of a TxRing half by __pfq_queue_xmit that gets
past the swap phase and completes, the sum of the sent count and the
discarded count accounted at the end equals the number of descriptors
with non-zero length present in the drained half: every non-terminator
descriptor is counted exactly once, either as sent or as discarded
(unsent batch leftovers plus descriptors never reached count as
discarded). -/
theorem drain_accounting (o : Ora) (dev : NetDevice) (hw_queue : Int)
    (fuel batchLen max_len : Nat) (ds : List Desc) (s0 : St) (res : DrainRes)
    (h : __pfq_queue_xmit o dev hw_queue fuel batchLen max_len ds s0 = some res) :
    res.tot_sent + res.disc = numLive ds := by
  simp only [__pfq_queue_xmit] at h
  split at h
  · exact absurd h (by simp)
  case _ tot batch rem evs1 s2 heq1 =>
    split at h
    · exact absurd h (by simp)
    case _ r batch2 evs2 s3 heq2 =>
      injection h with hp
      subst hp
      have hloop := drain_loop_acct o dev hw_queue fuel batchLen max_len
        ds [] s0.clk 0 (stepSt o s0) tot batch rem evs1 s2 heq1
      simp only [List.length_nil] at hloop
      have hflush : absSent r + batch2.length = batch.length := by
        split at heq2
        · obtain ⟨ha, _, _, _, _⟩ :=
            full_batch_xmit_acct o dev hw_queue fuel batch 0 s2 r batch2 evs2 s3 heq2
          simpa using ha
        · injection heq2 with hp2
          injection hp2 with h1 h2
          injection h2 with h2 h3
          subst h1 h2
          simp [absSent]
      simp only [DrainRes.tot_sent, DrainRes.disc, count_remaining_eq_numLive]
      omega

/-- Result of the concrete two-descriptor drain witness run: both
packets sent, nothing discarded, the second submission paced past its
timestamp. -/
def drainResW : DrainRes :=
  ⟨2, 0,
   [⟨⟨0, 100⟩, 0, false, 2⟩, ⟨⟨3, 80⟩, 0, false, 5⟩],
   ⟨6, 6, 2, 2⟩⟩

theorem drain_accounting_witness :
    drainResW.tot_sent + drainResW.disc = numLive [⟨0, 100⟩, ⟨3, 80⟩] :=
  drain_accounting oAll devOne 0 20 16 2048 [⟨0, 100⟩, ⟨3, 80⟩]
    ⟨0, 0, 0, 0⟩ drainResW (by rfl)

/-- C5: for every completed drain, every packet submission carries a
clock reading at least the nsec timestamp of its descriptor: no packet
is submitted strictly before its timestamp.  A give-up during the
pacing wait cannot break this either, because the give-up condition is
sticky and every later batch transmit checks it before submitting
anything. -/
theorem drain_pacing (o : Ora) (dev : NetDevice) (hw_queue : Int)
    (fuel batchLen max_len : Nat) (ds : List Desc) (s0 : St) (res : DrainRes)
    (h : __pfq_queue_xmit o dev hw_queue fuel batchLen max_len ds s0 = some res) :
    ∀ ev ∈ res.evs, ev.skb.nsec ≤ ev.time := by
  simp only [__pfq_queue_xmit] at h
  split at h
  · exact absurd h (by simp)
  case _ tot batch rem evs1 s2 heq1 =>
    split at h
    · exact absurd h (by simp)
    case _ r batch2 evs2 s3 heq2 =>
      injection h with hp
      subst hp
      obtain ⟨hev1, hinv⟩ := drain_loop_evs o dev hw_queue fuel batchLen max_len
        ds [] s0.clk 0 (stepSt o s0) tot batch rem evs1 s2 heq1
        (stepSt_le o s0).2 (Or.inl (by intro x hx; simp at hx))
      have hev2 : ∀ ev ∈ evs2, ev.skb.nsec ≤ ev.time := by
        split at heq2
        · rcases hinv with hb | hg
          · exact full_batch_xmit_evs o dev hw_queue fuel batch 0 s2 r batch2 evs2 s3 heq2 hb
          · intro ev hev
            rw [full_batch_xmit_giveup_evs o dev hw_queue fuel batch 0 s2
              r batch2 evs2 s3 hg heq2] at hev
            simp at hev
        · injection heq2 with hp2
          injection hp2 with h1 h2
          injection h2 with h2 h3
          injection h3 with h3 h4
          subst h3
          intro ev hev; simp at hev
      intro ev hev
      rcases List.mem_append.mp hev with hm | hm
      · exact hev1 ev hm
      · exact hev2 ev hm

theorem drain_pacing_witness :
    (⟨⟨3, 80⟩, 0, false, 5⟩ : SubEv).skb.nsec ≤
      (⟨⟨3, 80⟩, 0, false, 5⟩ : SubEv).time :=
  drain_pacing oAll devOne 0 20 16 2048 [⟨0, 100⟩, ⟨3, 80⟩]
    ⟨0, 0, 0, 0⟩ drainResW (by rfl) _ (by decide)

/-! ## Claim theorems for queue selection, the pool, lazy forwarding
and the serializer -/

/-- C2 counterexample: the claim says an out-of-range hw_queue is
clamped to real_num_tx_queues - 1 and that otherwise the caller value
is used unchanged.  On a device with 4 queues, hw_queue 7 is reset to
0, not clamped to 3; and on a single-queue device the caller value -1
is not kept: the bound check compares it as unsigned, so it is also
reset to 0. -/
theorem pfq_pick_tx_claim_counterexample :
    pfq_pick_tx ⟨4, 2⟩ 7 ≠ 3 ∧ pfq_pick_tx ⟨1, 0⟩ (-1) ≠ -1 := by
  decide

/-- C2 (amended): when hw_queue is -1 on a multi-queue device the
driver selector chooses and the chosen value goes through the bound
check; otherwise a hw_queue that is out of range under the unsigned
comparison of __pfq_dev_cap_txqueue (which includes every negative
value) is reset to queue 0, and an in-range hw_queue is used
unchanged. -/
theorem pfq_pick_tx_cap_spec (dev : NetDevice) (hw_queue : Int) :
    (dev.real_num_tx_queues ≠ 1 ∧ hw_queue = -1 →
      pfq_pick_tx dev hw_queue =
        __pfq_dev_cap_txqueue dev (dev.select_queue : Int)) ∧
    (¬(dev.real_num_tx_queues ≠ 1 ∧ hw_queue = -1) →
      (dev.real_num_tx_queues ≤ toUInt32Nat hw_queue →
        pfq_pick_tx dev hw_queue = 0) ∧
      (toUInt32Nat hw_queue < dev.real_num_tx_queues →
        pfq_pick_tx dev hw_queue = hw_queue)) := by
  constructor
  · intro hsel
    simp [pfq_pick_tx, hsel]
  · intro hsel
    constructor
    · intro hout
      simp [pfq_pick_tx, hsel, __pfq_dev_cap_txqueue, hout]
    · intro hin
      simp [pfq_pick_tx, hsel, __pfq_dev_cap_txqueue, Nat.not_le.mpr hin]

theorem pfq_pick_tx_cap_spec_witness : pfq_pick_tx ⟨4, 2⟩ 7 = 0 :=
  ((pfq_pick_tx_cap_spec ⟨4, 2⟩ 7).2 (by decide)).1 (by decide)

/-- Oracle used by the lazy-forward runs: every clone succeeds and
every submission completes. -/
def oLazyTrue : LazyOra := ⟨fun _ => true, fun _ => true⟩

/-- C3 counterexample: a buffer whose log holds one target device and
whose to_kernel flag is set, committed over a target list covering
that one logged target.  The claim (decrement once per committed
submission regardless of to_kernel) forces xmit_todo to end at 0; the
code leaves it at 1, because the short-circuit of
(to_kernel || xmit_todo-- > 1) skips the decrement when to_kernel is
set. -/
theorem pfq_lazy_xmit_exec_todo_counterexample :
    (pfq_lazy_xmit_exec oLazyTrue [(0, 1)] [⟨[0], 1, true⟩] 0 0).1.map
        GcLog.xmit_todo = [1] ∧
    ¬ ((pfq_lazy_xmit_exec oLazyTrue [(0, 1)] [⟨[0], 1, true⟩] 0 0).1.map
        GcLog.xmit_todo = [0]) := by
  decide

theorem exec_submits_log (o : LazyOra) (dev : DevId) (cnt : Nat) :
    ∀ (num : Nat) (log : GcLog) (sent_dev sent att : Nat),
      (exec_submits o dev cnt num log sent_dev sent att).1 =
        if log.to_kernel then log
        else { log with xmit_todo := log.xmit_todo - num } := by
  intro num
  induction num with
  | zero =>
    intro log sent_dev sent att
    simp only [exec_submits, Nat.cast_zero, sub_zero]
    split <;> rfl
  | succ j ih =>
    intro log sent_dev sent att
    simp only [exec_submits]
    rw [ih]
    by_cases htk : log.to_kernel
    · simp [htk]
    · simp [htk]
      omega

theorem exec_dev_loop_logs (o : LazyOra) (dev : DevId) (cnt : Nat) :
    ∀ (logs : List GcLog) (sent_dev sent att : Nat),
      (exec_dev_loop o dev cnt logs sent_dev sent att).1 =
        logs.map fun log =>
          if log.to_kernel then log
          else { log with
                 xmit_todo := log.xmit_todo - gc_count_dev_in_log dev log } := by
  intro logs
  induction logs with
  | nil => intro sent_dev sent att; simp [exec_dev_loop]
  | cons log rest ih =>
    intro sent_dev sent att
    simp only [exec_dev_loop]
    split
    case isTrue hz =>
      rw [List.map_cons, ih]
      have : (if log.to_kernel then log
          else { log with
                 xmit_todo := log.xmit_todo - gc_count_dev_in_log dev log }) = log := by
        rw [hz]
        simp only [Nat.cast_zero, sub_zero]
        split <;> rfl
      rw [this]
    case isFalse hz =>
      rw [List.map_cons, ih, exec_submits_log]

/-- C3 (amended): for every lazy-forward commit, a buffer whose
to_kernel flag is clear has its xmit_todo decremented exactly once per
committed target submission (the decrement happens while computing the
clone-or-get decision, on both paths); a buffer whose to_kernel flag
is set is never decremented.  Hence for a buffer with to_kernel clear
whose xmit_todo started equal to the number of submissions its logged
targets induce, xmit_todo ends at 0; for a to_kernel buffer it is
unchanged.  The device list and the to_kernel flag are never
modified. -/
theorem pfq_lazy_xmit_exec_todo (o : LazyOra) :
    ∀ (ts : List (DevId × Nat)) (logs : List GcLog) (sent att : Nat),
      (pfq_lazy_xmit_exec o ts logs sent att).1 =
        logs.map fun log =>
          if log.to_kernel then log
          else { log with xmit_todo := log.xmit_todo - execTotalCount ts log } := by
  intro ts
  induction ts with
  | nil =>
    intro logs sent att
    simp only [pfq_lazy_xmit_exec]
    rw [List.map_congr_left]
    · exact (List.map_id logs).symm
    · intro log _
      simp only [execTotalCount, List.map_nil, List.sum_nil, Nat.cast_zero,
        sub_zero]
      split <;> rfl
  | cons dc ts ih =>
    intro logs sent att
    obtain ⟨dev, cnt⟩ := dc
    simp only [pfq_lazy_xmit_exec]
    rw [ih, exec_dev_loop_logs, List.map_map]
    apply List.map_congr_left
    intro log _
    by_cases htk : log.to_kernel
    · simp [htk]
    · simp [htk, execTotalCount, gc_count_dev_in_log]
      omega

/-- C7: on an initialized pool, pop takes the head buffer exactly when
the pool is non-empty (consumer and producer indices differ) and the
head reference count is below 2, nulling the slot and advancing the
consumer index; otherwise (empty pool, or reference count at least 2)
the pool is unchanged and none is returned. -/
theorem pfq_skb_pool_pop_spec (users : SkbId → Nat) (pool : SkbPool)
    (arr : List (Option SkbId)) (skb : SkbId)
    (hinit : pool.skbs = some arr) :
    (pool.c_idx = pool.p_idx → pfq_skb_pool_pop users pool = some (none, pool)) ∧
    (pool.c_idx ≠ pool.p_idx → arr.get? pool.c_idx = some (some skb) →
      (users skb < 2 →
        pfq_skb_pool_pop users pool =
          some (some skb,
                { pool with skbs := some (arr.set pool.c_idx none),
                            c_idx := __pool_next pool pool.c_idx })) ∧
      (2 ≤ users skb →
        pfq_skb_pool_pop users pool = some (none, pool))) := by
  constructor
  · intro hcp
    simp [pfq_skb_pool_pop, hinit, hcp]
  · intro hcp hslot
    have hslot2 : arr[pool.c_idx]? = some (some skb) := by
      simpa using hslot
    constructor
    · intro hu
      simp [pfq_skb_pool_pop, hinit, hcp, hslot2, hu]
    · intro hu
      simp [pfq_skb_pool_pop, hinit, hcp, hslot2, Nat.not_lt.mpr hu]

theorem pfq_skb_pool_pop_spec_witness :
    pfq_skb_pool_pop (fun _ => 1) ⟨some [some 7, none, none], 3, 1, 0⟩ =
      some (some 7, ⟨some [none, none, none], 3, 1, 1⟩) :=
  ((pfq_skb_pool_pop_spec (fun _ => 1) ⟨some [some 7, none, none], 3, 1, 0⟩
      [some 7, none, none] 7 rfl).2 (by decide) rfl).1 (by decide)

/-- C8: pfq_lazy_xmit fails returning 0 with no side effect on the
buffer (queue mapping, device list and xmit_todo unchanged) when the
log already holds the capacity worth of device entries; otherwise it
sets the queue mapping, appends the device to the log, thereby
incrementing num_devs, increments xmit_todo and returns 1. -/
theorem pfq_lazy_xmit_spec (qlen : Nat) (buff : GcBuff) (dev : DevId)
    (hw_queue : Int) :
    (qlen ≤ buff.log.devs.length →
      pfq_lazy_xmit qlen buff dev hw_queue = (0, buff)) ∧
    (buff.log.devs.length < qlen →
      pfq_lazy_xmit qlen buff dev hw_queue =
        (1, ⟨hw_queue, ⟨buff.log.devs ++ [dev], buff.log.xmit_todo + 1,
             buff.log.to_kernel⟩⟩)) := by
  constructor
  · intro h
    simp [pfq_lazy_xmit, h]
  · intro h
    simp [pfq_lazy_xmit, Nat.not_le.mpr h]

theorem pfq_lazy_xmit_spec_witness :
    pfq_lazy_xmit 2 ⟨0, ⟨[], 0, false⟩⟩ 3 7 = (1, ⟨7, ⟨[3], 1, false⟩⟩) :=
  (pfq_lazy_xmit_spec 2 ⟨0, ⟨[], 0, false⟩⟩ 3 7).2 (by decide)

/-- C9: the serialize overload for the binary predicate Pred2 emits
the combinator descriptor (with child indices pointing at the two
following serializations) followed by two sub-serializations, but both
recursive calls receive the left operand, so the right operand never
contributes to the produced descriptor list: serialization is
invariant under replacing the right operand. -/
theorem serialize_pred2_right_ignored (n : Int) (c : Combinator)
    (l r r' : PredTerm) :
    serializePred n (.pred2 c l r) = serializePred n (.pred2 c l r') ∧
    serializePred n (.pred2 c l r) =
      (⟨FunType.combinator_fun, c.name, 0, n + 1, (serializePred (n + 1) l).2⟩ ::
        ((serializePred (n + 1) l).1 ++
         (serializePred (serializePred (n + 1) l).2 l).1),
       (serializePred (serializePred (n + 1) l).2 l).2) := by
  constructor
  · rfl
  · rfl

/-- C10: a never-initialized pool (NULL backing array) degrades to the
plain kernel allocator instead of faulting: pop returns none leaving
the pool untouched, and push does not store the buffer but sends it
through the slow kfree_skb path, bumping the os_free counter, and
returns false. -/
theorem uninit_pool_spec (users : SkbId → Nat) (size p c : Nat)
    (skb : SkbId) (osFree : Nat) :
    pfq_skb_pool_pop users ⟨none, size, p, c⟩ = some (none, ⟨none, size, p, c⟩) ∧
    pfq_skb_pool_push ⟨none, size, p, c⟩ skb osFree =
      some (false, ⟨none, size, p, c⟩, osFree + 1) :=
  ⟨rfl, rfl⟩

end PFQ
